import Mathlib

/-!
Shallow embedding of the free-text expense message interpreter of
budget-bot-rust: tokenizer (`src/handler/tokenizer.rs`), amount validation
(`src/handler/events/mod.rs`), category classifier
(`src/handler/categorizer/mod.rs`), English date-shift resolution
(`src/handler/date_parser/mod.rs`, `english.rs`) and the message
interpreter (`src/handler/mod.rs`).

Modelling conventions:
* Rust `String`/`&str` become Lean `String`; character-level work happens on
  `String.data : List Char`.  Rust byte-lexicographic string comparison and
  Lean's codepoint-lexicographic `<` agree because UTF-8 byte order equals
  codepoint order.
* Rust `i32`/`i64` become `Int`; no arithmetic in the modelled code can
  overflow on the values the claims are about, and the orderings agree.
* `chrono::NaiveDate` is abstracted to an `Int` day number; the interpreter
  only stores the date, never computes with it.
* Fallible code returns `Option`; the one `expect` (panic) in
  `Categorizer::classify` is modelled by an explicit `ClassifyResult.panic`
  constructor.
-/

/-- Token type of `tokenizer.rs`: `Word`, `Amount` (already validated and
comma-normalised, stored here as its string), `TrailingSigns`. -/
inductive Token where
  | word (s : String)
  | amount (a : String)
  | trailingSigns (s : String)
  deriving DecidableEq, Repr

/-- The `\d{1,2}` fractional part of the amount regex: one or two digits, end. -/
def matchFrac : List Char → Bool
  | [c] => c.isDigit
  | [c, d] => c.isDigit && d.isDigit
  | _ => false

/-- After the leading digit of `RE_AMOUNT`: further digits, then either end
of input or a separator `.`/`,` followed by a 1-2 digit fraction. -/
def matchRest : List Char → Bool
  | [] => true
  | c :: rest => if c.isDigit then matchRest rest
      else (c = '.' || c = ',') && matchFrac rest

/-- The `\d+([.,]\d{1,2})?$`: at least one digit, then `matchRest`. -/
def matchBody : List Char → Bool
  | [] => false
  | c :: rest => c.isDigit && matchRest rest

/-- The `RE_AMOUNT = ^-?\d+(?:[.,]\d{1,2})?$` from `events/mod.rs`, compiled to a
direct scanner: optional leading minus, then digits with an optional
1-2 digit fraction. -/
def matchesAmountFormat (s : String) : Bool :=
  match s.data with
  | '-' :: rest => matchBody rest
  | cs => matchBody cs

/-- Rust `s.replace(',', ".")`: every comma becomes a dot (the replacement
string has length one, so this is a character map). -/
def commaToDot (s : String) : String :=
  String.mk (s.data.map fun c => if c = ',' then '.' else c)

/-- The `impl FromStr for Amount` (`events/mod.rs`): validate against
`RE_AMOUNT`, normalise commas to dots. -/
def amountFromStr (s : String) : Option String :=
  if matchesAmountFormat s then some (commaToDot s) else none

/-- The fixed trailing-punctuation set `TRAILING_SIGNS` of `tokenizer.rs`. -/
def trailingSignChars : List Char := ['.', ',', ':', ';', '!', '?']

/-- Rust `word.trim_end_matches(TRAILING_SIGNS)`: remove the longest
trailing run of trailing-sign characters. -/
def stripTrailing (w : List Char) : List Char :=
  (w.reverse.dropWhile (fun c => trailingSignChars.contains c)).reverse

/-- One whitespace-delimited chunk of `tokenize`: strip trailing signs, try
the amount parse (`word.parse()`), fall back to a `Word`; if anything was
stripped, also emit the stripped suffix as `TrailingSigns`. -/
def tokenizeChunk (w : List Char) : List Token :=
  let stripped := stripTrailing w
  let tok := match amountFromStr (String.mk stripped) with
    | some a => Token.amount a
    | none => Token.word (String.mk stripped)
  if stripped = w then [tok]
  else [tok, Token.trailingSigns (String.mk (w.drop stripped.length))]

/-- Rust `str::split_whitespace`: split on runs of whitespace, no empty
chunks.  `acc` holds the current chunk reversed. -/
def splitWSAux : List Char → List Char → List (List Char)
  | [], acc => if acc = [] then [] else [acc.reverse]
  | c :: cs, acc =>
    if c.isWhitespace then
      if acc = [] then splitWSAux cs [] else acc.reverse :: splitWSAux cs []
    else splitWSAux cs (c :: acc)

/-- Token streams produced from chunk lists (the body of `tokenize`'s loop). -/
def tokenizeList : List (List Char) → List Token
  | [] => []
  | w :: ws => tokenizeChunk w ++ tokenizeList ws

/-- The `tokenize` of `tokenizer.rs`. -/
def tokenize (text : String) : List Token :=
  tokenizeList (splitWSAux text.data [])

example : tokenize "7.45 an apple and 2 bananas" =
    [Token.amount "7.45", Token.word "an", Token.word "apple",
     Token.word "and", Token.amount "2", Token.word "bananas"] := by decide

example : tokenize "banana 3,50." =
    [Token.word "banana", Token.amount "3.50", Token.trailingSigns "."] := by
  decide

example : tokenize "one, two" =
    [Token.word "one", Token.trailingSigns ",", Token.word "two"] := by decide

example : amountFromStr "42." = none := by decide
example : amountFromStr "42.135" = none := by decide
example : amountFromStr "-42" = some "-42" := by decide
example : amountFromStr "42,13" = some "42.13" := by decide

/-- A category (`categorizer/mod.rs`): name, `i32` priority, list of
lexemes (each lexeme a lowercase prefix string). -/
structure Category where
  name : String
  priority : Int
  lexemes : List String
  deriving DecidableEq, Repr

/-- Rust `Ord::cmp` on one linearly ordered component:
`x.cmp(&y)` is `Less`/`Equal`/`Greater` by the order. -/
def cmpOfLt {α : Type} [LinearOrder α] (x y : α) : Ordering :=
  if x < y then .lt else if y < x then .gt else .eq

/-- Lexicographic strict order on character lists (Rust compares strings by
UTF-8 bytes; byte order equals codepoint order). -/
def ltChars : List Char → List Char → Bool
  | [], [] => false
  | [], _ :: _ => true
  | _ :: _, [] => false
  | a :: as, b :: bs => if a < b then true else if b < a then false else ltChars as bs

/-- Rust `str`/`String` `<`. -/
def strLt (a b : String) : Bool := ltChars a.data b.data

/-- Rust `Ord::cmp` for strings. -/
def cmpStr (a b : String) : Ordering :=
  if strLt a b then .lt else if strLt b a then .gt else .eq

/-- The `impl Ord for Category`:
`other.priority.cmp(&self.priority).then(other.name.cmp(&self.name))` —
both components reversed, so the numerically largest priority (then the
lexically greatest name) is the *smallest* element. -/
def cmpCategory (a b : Category) : Ordering :=
  (cmpOfLt b.priority a.priority).then (cmpStr b.name a.name)

/-- ASCII lowercase of one character (agrees with Rust's
`char::to_lowercase`/`str::to_lowercase` on ASCII, the only alphabet the
modelled data uses). -/
def lowerChar (c : Char) : Char :=
  if 65 ≤ c.toNat ∧ c.toNat ≤ 90 then Char.ofNat (c.toNat + 32) else c

/-- Rust `str::trim`: drop leading and trailing whitespace. -/
def trimChars (l : List Char) : List Char :=
  ((l.dropWhile Char.isWhitespace).reverse.dropWhile Char.isWhitespace).reverse

/-- The `Category::match_word`: trim and lowercase the word, then test whether
any lexeme is a prefix of it (`word.starts_with(&l.0)`). -/
def matchWord (c : Category) (word : String) : Bool :=
  let w := (trimChars word.data).map lowerChar
  c.lexemes.any fun l => l.data.isPrefixOf w

/-- The `Lexeme::from(&str)`: trim, then lowercase. -/
def lexemeFrom (text : List Char) : String :=
  String.mk ((trimChars text).map lowerChar)

/-- Rust `str::split(',')`: split at every comma, keeping empty pieces. -/
def splitCommaAux : List Char → List Char → List (List Char)
  | [], acc => [acc.reverse]
  | c :: cs, acc =>
    if c = ',' then acc.reverse :: splitCommaAux cs []
    else splitCommaAux cs (c :: acc)

/-- The `LexemeList::from(&str)`: split on commas, normalise each lexeme. -/
def lexemeListFrom (text : String) : List String :=
  (splitCommaAux text.data []).map lexemeFrom

/-- The `BTreeSet<Category>::insert` on the sorted-ascending list that models
the set's iteration order: keep sortedness, drop `Ordering::Equal`
duplicates (the Rust insert is a no-op on an equal key). -/
def btreeInsert (c : Category) : List Category → List Category
  | [] => [c]
  | x :: xs =>
    match cmpCategory c x with
    | .lt => c :: x :: xs
    | .eq => x :: xs
    | .gt => x :: btreeInsert c xs

/-- The `Categorizer`: `categories: Option<BTreeSet<Category>>`, the set being
modelled as its ascending iteration sequence. -/
structure Categorizer where
  categories : Option (List Category)
  deriving DecidableEq, Repr

/-- The `Categorizer::new()`. -/
def Categorizer.new : Categorizer := ⟨none⟩

/-- The `Categorizer::add_category`. -/
def addCategory (cz : Categorizer) (category : Category) : Categorizer :=
  match cz.categories with
  | none => ⟨some [category]⟩
  | some cs => ⟨some (btreeInsert category cs)⟩

/-- The `Categorizer::load_categories`: add each provided category in order. -/
def loadCategories (provider : List Category) (cz : Categorizer) : Categorizer :=
  provider.foldl addCategory cz

/-- The `Categorizer::default_category`: `categories.range(..).next()`, the
first element of the ascending iteration, i.e. the least element under
`cmpCategory`. -/
def defaultCategory (cats : List Category) : Option Category :=
  cats.head?

/-- The multiset pushed onto the `BinaryHeap` in `classify`: for each
`Word` token, in stream order, every category matching it (in set order). -/
def candidates (cats : List Category) : List Token → List Category
  | [] => []
  | .word w :: rest => cats.filter (fun c => matchWord c w) ++ candidates cats rest
  | _ :: rest => candidates cats rest

/-- The `BinaryHeap::pop`: a maximal element under `cmpCategory` (`none` on an
empty heap).  Ties cannot arise between distinct categories of one
`BTreeSet`, so returning the later-pushed of two equal elements is
indistinguishable from any other tie choice. -/
def heapPop : List Category → Option Category
  | [] => none
  | c :: rest =>
    match heapPop rest with
    | none => some c
    | some m => if cmpCategory c m = .gt then some c else some m

/-- Result of `Categorizer::classify`: the `expect` on an unloaded
categorizer is a panic, otherwise an `Option<&Category>`. -/
inductive ClassifyResult where
  | panic
  | ok (c : Option Category)
  deriving DecidableEq, Repr

/-- The `Categorizer::classify`: panic when categories were never loaded; else
pop the best candidate from the heap, falling back to `default_category`. -/
def classify (cz : Categorizer) (ts : List Token) : ClassifyResult :=
  match cz.categories with
  | none => .panic
  | some cats =>
    .ok (match heapPop (candidates cats ts) with
         | some m => some m
         | none => defaultCategory cats)

/-- The word texts of a token stream, in order (what classification may
depend on). -/
def wordTexts : List Token → List String
  | [] => []
  | .word w :: rest => w :: wordTexts rest
  | _ :: rest => wordTexts rest

def categorySweets : Category := ⟨"Sweets", 10, lexemeListFrom "cand,sweet,chocolate"⟩
def categoryFruits : Category := ⟨"Fruits", 20, lexemeListFrom "apple,banana,orange"⟩
def categoryOthers : Category := ⟨"Others", 99999, lexemeListFrom "other,misc"⟩

/-- The three-category fixture of `categorizer/tests.rs`. -/
def fakeCategorizer : Categorizer :=
  loadCategories [categorySweets, categoryFruits, categoryOthers] Categorizer.new

example : classify fakeCategorizer (tokenize "10 for banana chocolates") =
    .ok (some categorySweets) := by decide
example : classify fakeCategorizer (tokenize "10 for BANANA Chocolates") =
    .ok (some categorySweets) := by decide
example : classify fakeCategorizer (tokenize "10 for tea") =
    .ok (some categoryOthers) := by decide
example : matchWord categorySweets "CanDy" = true := by decide
example : matchWord categorySweets "apple" = false := by decide

/-- Loop body of `RawMessageParser::extract_description`, carrying the
accumulated text (`result`, as characters) and the `trailing_signs_buffer`.
A trailing-signs token is buffered only when some text was already produced
and the buffer is empty; a word first flushes the buffer, then appends a
separating space (when text exists), then itself; amounts are skipped. -/
def descGo : List Token → List Char → Option String → List Char
  | [], result, _ => result
  | .trailingSigns signs :: rest, result, none =>
    if result ≠ [] then descGo rest result (some signs)
    else descGo rest result none
  | .trailingSigns _ :: rest, result, some b => descGo rest result (some b)
  | .word w :: rest, result, buf =>
    let r1 := result ++ (match buf with | some s => s.data | none => [])
    let r2 := if r1 ≠ [] then r1 ++ [' '] else r1
    descGo rest (r2 ++ w.data) none
  | .amount _ :: rest, result, buf => descGo rest result buf

/-- The `RawMessageParser::extract_description`. -/
def extractDescription (ts : List Token) : String :=
  String.mk (descGo ts [] none)

/-- The `RawMessageParser::extract_amount`: the first `Amount` token. -/
def extractAmount : List Token → Option String
  | [] => none
  | .amount a :: _ => some a
  | _ :: rest => extractAmount rest

/-- The `Input` of `handler/mod.rs`. -/
structure Input where
  id : Int
  user : String
  text : String
  isNew : Bool
  deriving DecidableEq, Repr

/-- The `BudgetRecord` of `events/mod.rs` (`NaiveDate` abstracted to an `Int`
day number). -/
structure BudgetRecord where
  id : Int
  date : Int
  category : String
  amount : String
  desc : String
  user : String
  deriving DecidableEq, Repr

/-- The `HandlerEvent` of `events/mod.rs`. -/
inductive HandlerEvent where
  | addRecord (r : BudgetRecord)
  | updateRecord (r : BudgetRecord)
  deriving DecidableEq, Repr

/-- The `Output` of `handler/mod.rs`. -/
structure Output where
  text : String
  events : List HandlerEvent
  deriving DecidableEq, Repr

/-- The `RawMessageParser::build_reply_message` (the `NaiveDate` display is
abstracted to the day number's decimal form). -/
def buildReplyMessage : HandlerEvent → String
  | .addRecord r =>
    "Added new record #" ++ toString r.id ++ "\nDate: " ++ toString r.date ++
      "\nCategory: " ++ r.category ++ "\nAmount: " ++ r.amount
  | .updateRecord r =>
    "Updated existed record #" ++ toString r.id ++ "\nDate: " ++ toString r.date ++
      "\nCategory: " ++ r.category ++ "\nAmount: " ++ r.amount

/-- Result of `RawMessageParser::handle_message`: either the panic
propagated out of `classify`, or an `Option<Output>`. -/
inductive HandleResult where
  | panic
  | ok (o : Option Output)
  deriving DecidableEq, Repr

/-- The `RawMessageParser::handle_message`: tokenize, build the record with
`date = Local::today()` (the `today` parameter), the classified category's
name and the first amount (`?` on either failure aborts with `None`), wrap
it in an add/update event and a reply string. -/
def handleMessage (today : Int) (cz : Categorizer) (input : Input) : HandleResult :=
  let tokens := tokenize input.text
  match classify cz tokens with
  | .panic => .panic
  | .ok none => .ok none
  | .ok (some cat) =>
    match extractAmount tokens with
    | none => .ok none
    | some amount =>
      let record : BudgetRecord :=
        ⟨input.id, today, cat.name, amount, extractDescription tokens, input.user⟩
      let event := if input.isNew then HandlerEvent.addRecord record
                   else HandlerEvent.updateRecord record
      .ok (some ⟨buildReplyMessage event, [event]⟩)

/-- The dates of the records carried by a handler result (a projection used
to state claims about the produced record's date). -/
def recordDates : HandleResult → List Int
  | .ok (some o) => o.events.map fun e =>
      match e with
      | .addRecord r => r.date
      | .updateRecord r => r.date
  | _ => []

example : extractDescription (tokenize "9,75. Chocolate pie") = "Chocolate pie" := by
  decide
example : extractDescription (tokenize "Chocolate pie, 9,75.") = "Chocolate pie" := by
  decide
example : extractAmount (tokenize "5 for 2 kg of candies") = some "5" := by decide
example : extractAmount (tokenize "Chocolate pie for 9,75.") = some "9.75" := by decide

/-- The `chrono::Weekday`. -/
inductive Weekday where
  | mon | tue | wed | thu | fri | sat | sun
  deriving DecidableEq, Repr

/-- The `Weekday::num_days_from_monday`: Monday is 0, Sunday is 6. -/
def numDaysFromMonday : Weekday → Nat
  | .mon => 0
  | .tue => 1
  | .wed => 2
  | .thu => 3
  | .fri => 4
  | .sat => 5
  | .sun => 6

/-- The `WeekdayExt::days_since` (`date_parser/mod.rs`):
`(7 + self.num_days_from_monday() - another.num_days_from_monday()) % 7`
in `u32`; the subtraction never borrows because `7 + x ≥ 6 ≥ y`, so plain
`Nat` arithmetic is exact. -/
def daysSince (self another : Weekday) : Nat :=
  (7 + numDaysFromMonday self - numDaysFromMonday another) % 7

/-- The `last/on <weekday>` offset of `english.rs`:
`days_since`, with a result of zero rewritten to 7. -/
def lastWeekdayShift (today target : Weekday) : Nat :=
  let x := daysSince today target
  if x = 0 then 7 else x

/-- Rust `str::eq_ignore_ascii_case`. -/
def eqIgnoreAsciiCase (a b : String) : Bool :=
  a.data.map lowerChar = b.data.map lowerChar

/-- Modelled from the spec: `Token::is_word` (used by the date resolvers
but defined outside the provided sources) holds when the token is a `Word`
equal to the keyword up to ASCII case, matching the resolvers'
keyword-table lookup and their explicit `eq_ignore_ascii_case` uses. -/
def tokIsWord (t : Token) (s : String) : Bool :=
  match t with
  | .word w => eqIgnoreAsciiCase w s
  | _ => false

/-- Modelled from the spec: `Token::any_of_words`, true when `is_word`
holds for any keyword in the list. -/
def tokAnyOfWords (t : Token) (keywords : List String) : Bool :=
  keywords.any (tokIsWord t)

/-- Lookahead variant: `is_word` applied through an optional lookahead token. -/
def optTokIsWord (t : Option Token) (s : String) : Bool :=
  match t with
  | some u => tokIsWord u s
  | none => false

/-- Decimal value of a digit run. -/
def digitsToNat (cs : List Char) : Nat :=
  cs.foldl (fun n c => 10 * n + (c.toNat - 48)) 0

/-- Modelled from the spec: `Amount::as_i32` (defined outside the provided
sources) parses the amount's string as an `i32`, so it succeeds exactly on
an optional minus followed by digits (the spec's "<integer amount>"),
within the `i32` range, and fails on fractional amounts. -/
def asI32 (a : String) : Option Int :=
  let parsed : Option Int :=
    match a.data with
    | '-' :: rest =>
      if rest ≠ [] ∧ rest.all Char.isDigit then some (-(digitsToNat rest : Int))
      else none
    | cs =>
      if cs ≠ [] ∧ cs.all Char.isDigit then some (digitsToNat cs : Int)
      else none
  match parsed with
  | some n => if -2147483648 ≤ n ∧ n ≤ 2147483647 then some n else none
  | none => none

/-- Library behaviour of the `impl FromStr for Weekday` in `chrono`: full English name or three-letter
abbreviation, ASCII-case-insensitive -/
def weekdayFromStr (s : String) : Option Weekday :=
  let l := String.mk (s.data.map lowerChar)
  if l = "monday" ∨ l = "mon" then some .mon
  else if l = "tuesday" ∨ l = "tue" then some .tue
  else if l = "wednesday" ∨ l = "wed" then some .wed
  else if l = "thursday" ∨ l = "thu" then some .thu
  else if l = "friday" ∨ l = "fri" then some .fri
  else if l = "saturday" ∨ l = "sat" then some .sat
  else if l = "sunday" ∨ l = "sun" then some .sun
  else none

/-- The canonical English name of a weekday. -/
def weekdayName : Weekday → String
  | .mon => "Monday"
  | .tue => "Tuesday"
  | .wed => "Wednesday"
  | .thu => "Thursday"
  | .fri => "Friday"
  | .sat => "Saturday"
  | .sun => "Sunday"

/-- The `EnglishDateShiftParser::parse_date_shift`, parameterised by today's
weekday (the code reads `Local::today().weekday()`).  The result is the
signed day count of the `chrono::Duration`.  Tokens are scanned left to
right; the arms of the Rust `match` are tried in source order and the
first token whose arm yields `Some` short-circuits the scan. -/
def englishDateShift (today : Weekday) : List Token → Option Int
  | [] => none
  | t :: rest =>
    let dur : Option Int :=
      match t with
      | .word w =>
        if eqIgnoreAsciiCase w "yesterday" then some 1
        else if (eqIgnoreAsciiCase w "last" || eqIgnoreAsciiCase w "on")
            && !rest.isEmpty then
          match rest.head? with
          | some (.word v) =>
            match weekdayFromStr v with
            | some wd => some (Int.ofNat (lastWeekdayShift today wd))
            | none => none
          | _ => none
        else if optTokIsWord rest.head? "ago" then
          if eqIgnoreAsciiCase w "week" then some 7
          else if eqIgnoreAsciiCase w "day" then some 1
          else none
        else none
      | .amount x =>
        match asI32 x with
        | some n =>
          if optTokIsWord rest[1]? "ago" then
            if optTokIsWord rest[0]? "days" then some n
            else if optTokIsWord rest[0]? "weeks" then some (7 * n)
            else none
          else none
        | none => none
      | .trailingSigns _ => none
    match dur with
    | some d => some d
    | none => englishDateShift today rest

example : englishDateShift .wed (tokenize "banana 4.5") = none := by decide
example : englishDateShift .wed (tokenize "banana 4.5 yesterday") = some 1 := by decide
example : englishDateShift .wed (tokenize "banana 4.5 2 days ago") = some 2 := by decide
example : englishDateShift .wed (tokenize "banana 4, 5 days ago") = some 5 := by decide
example : englishDateShift .wed (tokenize "banana 4.5 a week ago") = some 7 := by decide
example : englishDateShift .wed (tokenize "banana 4.5 2 weeks ago") = some 14 := by
  decide
example : englishDateShift .wed (tokenize "banana 4.5 last Monday") = some 2 := by
  decide
example : englishDateShift .mon (tokenize "banana 4.5 last Monday") = some 7 := by
  decide

/-- The spec's amount format, read as a regular expression's concatenation
semantics: an optional minus sign, a nonempty digit run, and optionally a
`.`/`,` separator followed by one or two digits, consuming the whole
string. -/
def specAmountRe (s : String) : Prop :=
  ∃ sign ds rest : List Char,
    s.data = sign ++ ds ++ rest ∧ (sign = [] ∨ sign = ['-']) ∧ ds ≠ [] ∧
    (∀ c ∈ ds, c.isDigit = true) ∧
    (rest = [] ∨ ∃ sep frac, (sep = '.' ∨ sep = ',') ∧ rest = sep :: frac ∧
      1 ≤ frac.length ∧ frac.length ≤ 2 ∧ ∀ c ∈ frac, c.isDigit = true)

/-- Spec-side description of the text produced after the first word:
each later word contributes the pending gap punctuation (the first
trailing-signs token seen since the previous word, if any), one space, and
itself; amounts are invisible; punctuation with no later word contributes
nothing. -/
def specRestDesc : List Token → Option String → List Char
  | [], _ => []
  | .word w :: rest, buf =>
    (match buf with | some s => s.data | none => []) ++
      ' ' :: (w.data ++ specRestDesc rest none)
  | .trailingSigns s :: rest, none => specRestDesc rest (some s)
  | .trailingSigns _ :: rest, some b => specRestDesc rest (some b)
  | .amount _ :: rest, buf => specRestDesc rest buf

/-- Spec-side description: tokens before the first word are dropped, then
the first word opens the text continued by `specRestDesc`. -/
def specDesc : List Token → List Char
  | [] => []
  | .word w :: rest => w.data ++ specRestDesc rest none
  | _ :: rest => specDesc rest

/-! ### Concrete fixtures for counterexamples and witnesses -/

/-- A categorizer loaded with the single catch-all category. -/
def czOthers : Categorizer := loadCategories [categoryOthers] Categorizer.new

/-- A message carrying an amount and a recognized date keyword. -/
def c1Input : Input := ⟨1, "u", "tea 5 yesterday", true⟩

/-- The output `handle_message` produces for `c1Input` when today is day 5. -/
def c1Out : Output :=
  ⟨"Added new record #1\nDate: 5\nCategory: Others\nAmount: 5",
   [HandlerEvent.addRecord ⟨1, 5, "Others", "5", "tea yesterday", "u"⟩]⟩

/-- First-loaded category with the numerically smallest priority. -/
def catLowPrio : Category := ⟨"a", 1, ["zzz"]⟩

/-- Second-loaded category with the numerically largest priority. -/
def catHighPrio : Category := ⟨"b", 99, ["yyy"]⟩

/-- Tie-break fixture: lexically smaller name. -/
def catApple : Category := ⟨"Apple", 1, ["x"]⟩

/-- Tie-break fixture: lexically greater name, same priority and lexemes. -/
def catBanana : Category := ⟨"Banana", 1, ["x"]⟩

/-! ### Order-theoretic facts about the category comparator -/

theorem cmpOfLt_eq_lt {α : Type} [LinearOrder α] {x y : α} :
    cmpOfLt x y = .lt ↔ x < y := by
  unfold cmpOfLt
  split_ifs with h1 h2
  · exact iff_of_true rfl h1
  · exact iff_of_false (by decide) h1
  · exact iff_of_false (by decide) h1

theorem cmpOfLt_eq_gt {α : Type} [LinearOrder α] {x y : α} :
    cmpOfLt x y = .gt ↔ y < x := by
  unfold cmpOfLt
  split_ifs with h1 h2
  · exact iff_of_false (by decide) (not_lt.mpr h1.le)
  · exact iff_of_true rfl h2
  · exact iff_of_false (by decide) h2

theorem cmpOfLt_eq_eq {α : Type} [LinearOrder α] {x y : α} :
    cmpOfLt x y = .eq ↔ x = y := by
  unfold cmpOfLt
  split_ifs with h1 h2
  · exact iff_of_false (by decide) (ne_of_lt h1)
  · exact iff_of_false (by decide) (ne_of_gt h2)
  · exact iff_of_true rfl (le_antisymm (not_lt.mp h2) (not_lt.mp h1))

theorem ordering_then_eq_gt {o p : Ordering} :
    o.then p = .gt ↔ o = .gt ∨ (o = .eq ∧ p = .gt) := by
  cases o <;> simp [Ordering.then]

theorem ordering_then_eq_lt {o p : Ordering} :
    o.then p = .lt ↔ o = .lt ∨ (o = .eq ∧ p = .lt) := by
  cases o <;> simp [Ordering.then]

theorem ordering_then_eq_eq {o p : Ordering} :
    o.then p = .eq ↔ o = .eq ∧ p = .eq := by
  cases o <;> simp [Ordering.then]

theorem ltChars_iff : ∀ as bs : List Char, ltChars as bs = true ↔ as < bs := by
  intro as
  induction as with
  | nil =>
    intro bs
    cases bs with
    | nil =>
      refine iff_of_false (by simp [ltChars]) ?_
      intro h
      cases h
    | cons b tl => exact iff_of_true rfl List.Lex.nil
  | cons a tl ih =>
    intro bs
    cases bs with
    | nil =>
      refine iff_of_false (by simp [ltChars]) ?_
      intro h
      cases h
    | cons b tl2 =>
      simp only [ltChars]
      by_cases h1 : a < b
      · rw [if_pos h1]
        exact iff_of_true rfl (List.Lex.rel h1)
      · rw [if_neg h1]
        by_cases h2 : b < a
        · rw [if_pos h2]
          refine iff_of_false (by simp) ?_
          intro h
          cases h with
          | cons hl => exact absurd h2 (lt_irrefl a)
          | rel hab => exact h1 hab
        · rw [if_neg h2]
          have heq : a = b := le_antisymm (not_lt.mp h2) (not_lt.mp h1)
          subst heq
          rw [ih tl2]
          constructor
          · intro h
            exact List.Lex.cons h
          · intro h
            cases h with
            | cons hl => exact hl
            | rel hab => exact absurd hab (lt_irrefl a)

theorem strLt_iff {a b : String} : strLt a b = true ↔ a < b := by
  rw [String.lt_iff_toList_lt]
  exact ltChars_iff a.data b.data

/-- The executable string comparator agrees with the one induced by the
linear order on `String`. -/
theorem cmpStr_eq_cmpOfLt (a b : String) : cmpStr a b = cmpOfLt a b := by
  unfold cmpStr cmpOfLt
  by_cases h1 : a < b
  · rw [if_pos (strLt_iff.mpr h1), if_pos h1]
  · rw [if_neg (fun hh => h1 (strLt_iff.mp hh)), if_neg h1]
    by_cases h2 : b < a
    · rw [if_pos (strLt_iff.mpr h2), if_pos h2]
    · rw [if_neg (fun hh => h2 (strLt_iff.mp hh)), if_neg h2]

/-- Category `a` beats `b` in the classifier's heap iff `a` has the numerically
smaller priority, or equal priority and the lexically smaller name. -/
theorem cmpCategory_eq_gt {a b : Category} :
    cmpCategory a b = .gt ↔
      a.priority < b.priority ∨ (a.priority = b.priority ∧ a.name < b.name) := by
  unfold cmpCategory
  rw [cmpStr_eq_cmpOfLt]
  rw [ordering_then_eq_gt, cmpOfLt_eq_gt, cmpOfLt_eq_gt, cmpOfLt_eq_eq]
  constructor
  · rintro (h | ⟨h1, h2⟩)
    · exact Or.inl h
    · exact Or.inr ⟨h1.symm, h2⟩
  · rintro (h | ⟨h1, h2⟩)
    · exact Or.inl h
    · exact Or.inr ⟨h1.symm, h2⟩

theorem cmpCategory_eq_eq {a b : Category} :
    cmpCategory a b = .eq ↔ a.priority = b.priority ∧ a.name = b.name := by
  unfold cmpCategory
  rw [cmpStr_eq_cmpOfLt]
  rw [ordering_then_eq_eq, cmpOfLt_eq_eq, cmpOfLt_eq_eq]
  constructor
  · rintro ⟨h1, h2⟩; exact ⟨h1.symm, h2.symm⟩
  · rintro ⟨h1, h2⟩; exact ⟨h1.symm, h2.symm⟩

theorem cmpCategory_lt_iff_gt {a b : Category} :
    cmpCategory a b = .lt ↔ cmpCategory b a = .gt := by
  unfold cmpCategory
  rw [cmpStr_eq_cmpOfLt, cmpStr_eq_cmpOfLt]
  rw [ordering_then_eq_lt, ordering_then_eq_gt,
    cmpOfLt_eq_lt, cmpOfLt_eq_gt, cmpOfLt_eq_eq, cmpOfLt_eq_eq, cmpOfLt_eq_lt,
    cmpOfLt_eq_gt]
  constructor
  · rintro (h | ⟨h1, h2⟩)
    · exact Or.inl h
    · exact Or.inr ⟨h1.symm, h2⟩
  · rintro (h | ⟨h1, h2⟩)
    · exact Or.inl h
    · exact Or.inr ⟨h1.symm, h2⟩

theorem cmpCategory_self (a : Category) : cmpCategory a a = .eq :=
  cmpCategory_eq_eq.mpr ⟨rfl, rfl⟩

/-- Not losing to `b` means having the numerically larger-or-equal
priority, with ties requiring the lexically greater-or-equal name. -/
theorem cmpCategory_ne_gt {a b : Category} :
    cmpCategory a b ≠ .gt ↔
      b.priority ≤ a.priority ∧ (a.priority = b.priority → b.name ≤ a.name) := by
  rw [Ne, cmpCategory_eq_gt]
  push_neg
  exact Iff.rfl

/-- If `c` beats `m` and `x` does not beat `m`, then `x` does not beat `c`. -/
theorem cmpCategory_gt_mono {c m x : Category} (h1 : cmpCategory c m = .gt)
    (h2 : cmpCategory x m ≠ .gt) : cmpCategory x c ≠ .gt := by
  rw [cmpCategory_eq_gt] at h1
  rw [cmpCategory_ne_gt] at h2 ⊢
  obtain ⟨hp, hn⟩ := h2
  rcases h1 with h | ⟨he, hnm⟩
  · refine ⟨le_trans (le_of_lt h) hp, fun hxc => ?_⟩
    exact absurd (lt_of_lt_of_le h hp) (by rw [hxc]; exact lt_irrefl _)
  · refine ⟨he ▸ hp, fun hxc => ?_⟩
    have hxm : x.priority = m.priority := by rw [hxc, he]
    exact le_trans (le_of_lt hnm) (hn hxm)

/-! ### Heap-pop facts -/

theorem heapPop_eq_none {l : List Category} : heapPop l = none ↔ l = [] := by
  cases l with
  | nil => simp [heapPop]
  | cons c rest =>
    simp only [heapPop]
    cases h : heapPop rest with
    | none => simp
    | some m => by_cases hc : cmpCategory c m = .gt <;> simp [hc]

theorem heapPop_mem {l : List Category} :
    ∀ {m : Category}, heapPop l = some m → m ∈ l := by
  induction l with
  | nil => intro m h; simp [heapPop] at h
  | cons c rest ih =>
    intro m h
    simp only [heapPop] at h
    cases hr : heapPop rest with
    | none =>
      rw [hr] at h
      simp at h
      simp [h]
    | some m' =>
      rw [hr] at h
      by_cases hc : cmpCategory c m' = .gt
      · simp [hc] at h
        simp [h]
      · simp [hc] at h
        exact List.mem_cons_of_mem _ (h ▸ ih hr)

theorem heapPop_ge {l : List Category} :
    ∀ {m : Category}, heapPop l = some m → ∀ x ∈ l, cmpCategory x m ≠ .gt := by
  induction l with
  | nil => intro m h; simp [heapPop] at h
  | cons c rest ih =>
    intro m h
    simp only [heapPop] at h
    cases hr : heapPop rest with
    | none =>
      have hrest : rest = [] := heapPop_eq_none.mp hr
      rw [hr] at h
      simp at h
      subst hrest
      intro x hx
      simp at hx
      rw [hx, ← h, cmpCategory_self]
      decide
    | some m' =>
      rw [hr] at h
      by_cases hc : cmpCategory c m' = .gt
      · simp [hc] at h
        intro x hx
        rcases List.mem_cons.mp hx with hxc | hxr
        · rw [hxc, ← h, cmpCategory_self]
          decide
        · exact h ▸ cmpCategory_gt_mono hc (ih hr x hxr)
      · simp [hc] at h
        intro x hx
        rcases List.mem_cons.mp hx with hxc | hxr
        · rw [hxc]
          exact h ▸ hc
        · exact h ▸ ih hr x hxr

/-- With no two distinct categories comparing `Equal` (the `BTreeSet`
invariant), `heapPop` depends only on which categories are present. -/
theorem heapPop_congr {l1 l2 : List Category}
    (hmem : ∀ c, c ∈ l1 ↔ c ∈ l2)
    (hdist : ∀ x ∈ l1, ∀ y ∈ l1, cmpCategory x y = .eq → x = y) :
    heapPop l1 = heapPop l2 := by
  cases h1 : heapPop l1 with
  | none =>
    have : l1 = [] := heapPop_eq_none.mp h1
    subst this
    cases h2 : heapPop l2 with
    | none => rfl
    | some m2 => exact absurd ((hmem m2).mpr (heapPop_mem h2)) (by simp)
  | some m1 =>
    cases h2 : heapPop l2 with
    | none =>
      have : l2 = [] := heapPop_eq_none.mp h2
      subst this
      exact absurd ((hmem m1).mp (heapPop_mem h1)) (by simp)
    | some m2 =>
      have hm1 : m1 ∈ l1 := heapPop_mem h1
      have hm2 : m2 ∈ l1 := (hmem m2).mpr (heapPop_mem h2)
      have hge1 : cmpCategory m2 m1 ≠ .gt := heapPop_ge h1 m2 hm2
      have hge2 : cmpCategory m1 m2 ≠ .gt :=
        heapPop_ge h2 m1 ((hmem m1).mp hm1)
      have heq : cmpCategory m1 m2 = .eq := by
        cases hcc : cmpCategory m1 m2 with
        | lt => exact absurd (cmpCategory_lt_iff_gt.mp hcc) hge1
        | eq => rfl
        | gt => exact absurd hcc hge2
      rw [hdist m1 hm1 m2 hm2 heq]

/-! ### Candidate-set facts -/

theorem mem_candidates {cats : List Category} {ts : List Token} {c : Category} :
    c ∈ candidates cats ts ↔
      c ∈ cats ∧ ∃ w, w ∈ wordTexts ts ∧ matchWord c w = true := by
  induction ts with
  | nil => simp [candidates, wordTexts]
  | cons t rest ih =>
    cases t with
    | word w =>
      simp only [candidates, wordTexts, List.mem_append, List.mem_filter, ih]
      constructor
      · rintro (⟨hc, hm⟩ | ⟨hc, w', hw', hm⟩)
        · exact ⟨hc, w, by simp, hm⟩
        · exact ⟨hc, w', by simp [hw'], hm⟩
      · rintro ⟨hc, w', hw', hm⟩
        rcases List.mem_cons.mp hw' with h | h
        · exact Or.inl ⟨hc, h ▸ hm⟩
        · exact Or.inr ⟨hc, w', h, hm⟩
    | amount a => simpa [candidates, wordTexts] using ih
    | trailingSigns s => simpa [candidates, wordTexts] using ih

theorem candidates_subset {cats : List Category} {ts : List Token} {c : Category}
    (h : c ∈ candidates cats ts) : c ∈ cats :=
  (mem_candidates.mp h).1

theorem candidates_eq_nil {cats : List Category} {ts : List Token}
    (h : ∀ c ∈ cats, ∀ w ∈ wordTexts ts, matchWord c w = false) :
    candidates cats ts = [] := by
  rw [List.eq_nil_iff_forall_not_mem]
  intro c hc
  obtain ⟨hcc, w, hw, hm⟩ := mem_candidates.mp hc
  rw [h c hcc w hw] at hm
  exact Bool.false_ne_true hm

/-! ### Amount extraction, loading and classification totality -/

theorem extractAmount_eq_none {ts : List Token} :
    extractAmount ts = none ↔ ∀ a, Token.amount a ∉ ts := by
  induction ts with
  | nil => simp [extractAmount]
  | cons t rest ih =>
    cases t with
    | word w => simp [extractAmount, ih]
    | amount a =>
      simp only [extractAmount]
      exact iff_of_false (by simp) fun h => h a (List.mem_cons_self _ _)
    | trailingSigns s => simp [extractAmount, ih]

theorem extractAmount_first {ts : List Token} :
    ∀ {a : String}, extractAmount ts = some a →
      ∃ pre post, ts = pre ++ Token.amount a :: post ∧
        ∀ b, Token.amount b ∉ pre := by
  induction ts with
  | nil => intro a h; simp [extractAmount] at h
  | cons t rest ih =>
    intro a h
    cases t with
    | word w =>
      obtain ⟨pre, post, heq, hpre⟩ := ih h
      refine ⟨Token.word w :: pre, post, by rw [heq]; rfl, ?_⟩
      intro b hb
      rcases List.mem_cons.mp hb with hx | hx
      · exact Token.noConfusion hx
      · exact hpre b hx
    | amount x =>
      simp [extractAmount] at h
      exact ⟨[], rest, by rw [h]; rfl, by simp⟩
    | trailingSigns s =>
      obtain ⟨pre, post, heq, hpre⟩ := ih h
      refine ⟨Token.trailingSigns s :: pre, post, by rw [heq]; rfl, ?_⟩
      intro b hb
      rcases List.mem_cons.mp hb with hx | hx
      · exact Token.noConfusion hx
      · exact hpre b hx

theorem btreeInsert_ne_nil (c : Category) (l : List Category) :
    btreeInsert c l ≠ [] := by
  cases l with
  | nil => simp [btreeInsert]
  | cons x xs =>
    simp only [btreeInsert]
    cases cmpCategory c x <;> simp

theorem loadCategories_preserves {provider : List Category} :
    ∀ {cz : Categorizer} {cats : List Category}, cz.categories = some cats →
      cats ≠ [] →
      ∃ cs, (loadCategories provider cz).categories = some cs ∧ cs ≠ [] := by
  induction provider with
  | nil => intro cz cats h hne; exact ⟨cats, h, hne⟩
  | cons c rest ih =>
    intro cz cats h hne
    have : (addCategory cz c).categories = some (btreeInsert c cats) := by
      simp [addCategory, h]
    exact ih this (btreeInsert_ne_nil c cats)

theorem loadCategories_loaded {provider : List Category} (h : provider ≠ []) :
    ∃ cs, (loadCategories provider Categorizer.new).categories = some cs ∧
      cs ≠ [] := by
  cases provider with
  | nil => exact absurd rfl h
  | cons c rest =>
    have h1 : (addCategory Categorizer.new c).categories = some [c] := by
      simp [addCategory, Categorizer.new]
    have h2 : loadCategories (c :: rest) Categorizer.new =
        loadCategories rest (addCategory Categorizer.new c) := rfl
    rw [h2]
    exact loadCategories_preserves h1 (by simp)

/-! ### The amount regex, characterised by its decomposition semantics -/


theorem matchFrac_iff {cs : List Char} :
    matchFrac cs = true ↔
      1 ≤ cs.length ∧ cs.length ≤ 2 ∧ ∀ c ∈ cs, c.isDigit = true := by
  cases cs with
  | nil => simp [matchFrac]
  | cons c tl =>
    cases tl with
    | nil => simp [matchFrac]
    | cons d tl2 =>
      cases tl2 with
      | nil => simp [matchFrac, and_assoc]
      | cons e tl3 =>
        refine iff_of_false (by simp [matchFrac]) ?_
        rintro ⟨-, h2, -⟩
        simp at h2

theorem matchRest_append_digits {ds rest : List Char}
    (h : ∀ c ∈ ds, c.isDigit = true) :
    matchRest (ds ++ rest) = matchRest rest := by
  induction ds with
  | nil => rfl
  | cons c tl ih =>
    have hc : c.isDigit = true := h c (List.mem_cons_self _ _)
    simp only [List.cons_append, matchRest, hc, if_true]
    exact ih fun x hx => h x (List.mem_cons_of_mem _ hx)

theorem matchRest_sep {sep : Char} {frac : List Char}
    (h : sep = '.' ∨ sep = ',') :
    matchRest (sep :: frac) = matchFrac frac := by
  rcases h with h | h <;> subst h <;> simp [matchRest]

theorem matchRest_split {cs : List Char} (h : matchRest cs = true) :
    ∃ ds rest, cs = ds ++ rest ∧ (∀ c ∈ ds, c.isDigit = true) ∧
      (rest = [] ∨ ∃ sep frac, (sep = '.' ∨ sep = ',') ∧ rest = sep :: frac ∧
        1 ≤ frac.length ∧ frac.length ≤ 2 ∧ ∀ c ∈ frac, c.isDigit = true) := by
  induction cs with
  | nil => exact ⟨[], [], rfl, by simp, Or.inl rfl⟩
  | cons c tl ih =>
    by_cases hc : c.isDigit = true
    · have htl : matchRest tl = true := by
        simpa [matchRest, hc] using h
      obtain ⟨ds, rest, heq, hds, hrest⟩ := ih htl
      refine ⟨c :: ds, rest, by rw [heq]; rfl, ?_, hrest⟩
      intro x hx
      rcases List.mem_cons.mp hx with hx | hx
      · exact hx ▸ hc
      · exact hds x hx
    · have hcf : c.isDigit = false := by simpa using hc
      simp only [matchRest, hcf, Bool.false_eq_true, if_false, Bool.and_eq_true,
        Bool.or_eq_true, decide_eq_true_eq] at h
      obtain ⟨hsep, hfrac⟩ := h
      obtain ⟨h1, h2, h3⟩ := matchFrac_iff.mp hfrac
      exact ⟨[], c :: tl, rfl, by simp, Or.inr ⟨c, tl, hsep, rfl, h1, h2, h3⟩⟩

theorem matchBody_iff {cs : List Char} :
    matchBody cs = true ↔
      ∃ ds rest, cs = ds ++ rest ∧ ds ≠ [] ∧ (∀ c ∈ ds, c.isDigit = true) ∧
        (rest = [] ∨ ∃ sep frac, (sep = '.' ∨ sep = ',') ∧ rest = sep :: frac ∧
          1 ≤ frac.length ∧ frac.length ≤ 2 ∧ ∀ c ∈ frac, c.isDigit = true) := by
  constructor
  · intro h
    cases cs with
    | nil => simp [matchBody] at h
    | cons c tl =>
      simp only [matchBody, Bool.and_eq_true] at h
      obtain ⟨hc, htl⟩ := h
      obtain ⟨ds, rest, heq, hds, hrest⟩ := matchRest_split htl
      refine ⟨c :: ds, rest, by rw [heq]; rfl, by simp, ?_, hrest⟩
      intro x hx
      rcases List.mem_cons.mp hx with hx | hx
      · exact hx ▸ hc
      · exact hds x hx
  · rintro ⟨ds, rest, heq, hne, hds, hrest⟩
    cases ds with
    | nil => exact absurd rfl hne
    | cons d tl =>
      subst heq
      simp only [List.cons_append, matchBody, Bool.and_eq_true]
      refine ⟨hds d (List.mem_cons_self _ _), ?_⟩
      rw [matchRest_append_digits fun x hx => hds x (List.mem_cons_of_mem _ hx)]
      rcases hrest with h | ⟨sep, frac, hsep, hr, h1, h2, h3⟩
      · rw [h]; rfl
      · rw [hr, matchRest_sep hsep]
        exact matchFrac_iff.mpr ⟨h1, h2, h3⟩

theorem matchesAmountFormat_iff {s : String} :
    matchesAmountFormat s = true ↔ specAmountRe s := by
  unfold matchesAmountFormat specAmountRe
  split
  next rest heq =>
    rw [matchBody_iff]
    constructor
    · rintro ⟨ds, rest2, h, hne, hds, hrest⟩
      exact ⟨['-'], ds, rest2, by rw [heq, h]; rfl, Or.inr rfl, hne, hds, hrest⟩
    · rintro ⟨sign, ds, rest2, h, hsign, hne, hds, hrest⟩
      rcases hsign with hs | hs
      · subst hs
        rw [heq] at h
        simp only [List.nil_append] at h
        cases ds with
        | nil => exact absurd rfl hne
        | cons d tl =>
          have hd : d = '-' := (List.cons.injEq .. ▸ h).1.symm
          have : d.isDigit = true := hds d (List.mem_cons_self _ _)
          rw [hd] at this
          simp at this
      · subst hs
        rw [heq] at h
        simp only [List.cons_append, List.singleton_append, List.cons.injEq] at h
        exact ⟨ds, rest2, h.2, hne, hds, hrest⟩
  next hno =>
    rw [matchBody_iff]
    constructor
    · rintro ⟨ds, rest2, h, hne, hds, hrest⟩
      exact ⟨[], ds, rest2, by rw [h]; rfl, Or.inl rfl, hne, hds, hrest⟩
    · rintro ⟨sign, ds, rest2, h, hsign, hne, hds, hrest⟩
      rcases hsign with hs | hs
      · subst hs
        simp only [List.nil_append] at h
        exact ⟨ds, rest2, h, hne, hds, hrest⟩
      · subst hs
        exact absurd h (hno (ds ++ rest2))

/-! ### A direct, non-accumulating description semantics -/


theorem descGo_eq_specRestDesc {ts : List Token} :
    ∀ {r : List Char} {buf : Option String}, r ≠ [] →
      descGo ts r buf = r ++ specRestDesc ts buf := by
  induction ts with
  | nil => intro r buf _; simp [descGo, specRestDesc]
  | cons t rest ih =>
    intro r buf hr
    cases t with
    | word w =>
      simp only [descGo, specRestDesc]
      cases buf with
      | none =>
        simp only [List.append_nil]
        rw [if_pos hr, ih (by simp)]
        simp only [List.nil_append, List.append_assoc, List.cons_append]
      | some b =>
        have h1 : r ++ b.data ≠ [] := fun h => hr (List.append_eq_nil.mp h).1
        rw [if_pos h1, ih (by simp)]
        simp
    | amount a =>
      simp only [descGo, specRestDesc]
      exact ih hr
    | trailingSigns s =>
      cases buf with
      | none =>
        simp only [descGo, specRestDesc]
        rw [if_pos hr]
        exact ih hr
      | some b =>
        simp only [descGo, specRestDesc]
        exact ih hr

theorem descGo_empty_eq_specDesc {ts : List Token}
    (hw : ∀ w, Token.word w ∈ ts → w ≠ "") :
    descGo ts [] none = specDesc ts := by
  induction ts with
  | nil => rfl
  | cons t rest ih =>
    cases t with
    | word w =>
      have hwne : w ≠ "" := hw w (List.mem_cons_self _ _)
      have hdata : w.data ≠ [] := fun h =>
        hwne (String.ext (show w.data = String.data "" by rw [h]))
      simp only [descGo, specDesc, List.nil_append, List.append_nil]
      rw [if_neg (by simp), List.nil_append, descGo_eq_specRestDesc hdata]
    | amount a =>
      simp only [descGo, specDesc]
      exact ih fun w hwmem => hw w (List.mem_cons_of_mem _ hwmem)
    | trailingSigns s =>
      simp only [descGo, specDesc]
      rw [if_neg (by simp)]
      exact ih fun w hwmem => hw w (List.mem_cons_of_mem _ hwmem)

theorem classify_total {cz : Categorizer} {cats : List Category}
    (h : cz.categories = some cats) (hne : cats ≠ []) (ts : List Token) :
    ∃ c, classify cz ts = .ok (some c) := by
  simp only [classify, h]
  cases hp : heapPop (candidates cats ts) with
  | none =>
    cases cats with
    | nil => exact absurd rfl hne
    | cons x xs => exact ⟨x, by simp [defaultCategory]⟩
  | some m => exact ⟨m, by simp⟩


/-! ### The claims -/

/-- C1, counterexample: on the message "tea 5 yesterday" the English
resolver recognizes a shift of 1 day, yet `handle_message` (with today =
day 0) produces a record dated day 0, not `0 - 1`: the interpreter never
consults a date resolver, contradicting the claimed
`record.date = today - shift`. -/
theorem c1_counterexample :
    englishDateShift .mon (tokenize "tea 5 yesterday") = some 1 ∧
    recordDates (handleMessage 0 czOthers c1Input) = [0] ∧
    ¬((0 : Int) = 0 - 1) := by decide

/-- C1, amended: `handle_message` sets the produced record's date to today
unconditionally, for every input and every categorizer — the date-shift
resolvers are never invoked, so a recognized date pattern has no effect on
the record. -/
theorem c1_amended (today : Int) (cz : Categorizer) (input : Input)
    (out : Output) (h : handleMessage today cz input = .ok (some out)) :
    ∃ r, (out.events = [HandlerEvent.addRecord r] ∨
      out.events = [HandlerEvent.updateRecord r]) ∧ r.date = today := by
  simp only [handleMessage] at h
  cases hcl : classify cz (tokenize input.text) with
  | panic => rw [hcl] at h; exact absurd h (by simp)
  | ok copt =>
    cases copt with
    | none => rw [hcl] at h; exact absurd h (by simp)
    | some cat =>
      rw [hcl] at h
      cases ham : extractAmount (tokenize input.text) with
      | none => rw [ham] at h; exact absurd h (by simp)
      | some amount =>
        rw [ham] at h
        by_cases hn : input.isNew
        · simp only [hn, if_true, HandleResult.ok.injEq, Option.some.injEq] at h
          subst h
          exact ⟨_, Or.inl rfl, rfl⟩
        · simp only [hn, if_false, HandleResult.ok.injEq, Option.some.injEq,
            Bool.false_eq_true] at h
          subst h
          exact ⟨_, Or.inr rfl, rfl⟩

/-- C1, witness for the amended theorem at a concrete run. -/
theorem c1_amended_witness :
    ∃ r, (c1Out.events = [HandlerEvent.addRecord r] ∨
      c1Out.events = [HandlerEvent.updateRecord r]) ∧ r.date = 5 :=
  c1_amended 5 czOthers c1Input c1Out (by decide)

/-- C2, counterexample: with `catLowPrio` loaded first and `catHighPrio`
second, a message matching no lexeme is classified as `catHighPrio` (the
`BTreeSet` minimum, i.e. the largest numeric priority), not the
first-inserted `catLowPrio` the claim predicts. -/
theorem c2_counterexample :
    classify (loadCategories [catLowPrio, catHighPrio] Categorizer.new) [] =
      .ok (some catHighPrio) ∧ catHighPrio ≠ catLowPrio := by decide

/-- C2, amended: when no word of the message matches any category, classify
returns the least element of the category set's ordering — the category
with the numerically largest priority, ties going to the lexically greatest
name — independent of insertion order (the `BTreeSet` holds no insertion
order at all). -/
theorem c2_amended (cz : Categorizer) (cats : List Category) (ts : List Token)
    (hc : cz.categories = some cats)
    (hsorted : cats.Pairwise fun a b => cmpCategory a b = .lt)
    (hne : cats ≠ [])
    (hnomatch : ∀ c ∈ cats, ∀ w ∈ wordTexts ts, matchWord c w = false) :
    ∃ m, classify cz ts = .ok (some m) ∧ m ∈ cats ∧
      ∀ c ∈ cats, c.priority ≤ m.priority ∧
        (c.priority = m.priority → c.name ≤ m.name) := by
  have hcand : candidates cats ts = [] := candidates_eq_nil hnomatch
  cases cats with
  | nil => exact absurd rfl hne
  | cons x xs =>
    refine ⟨x, ?_, List.mem_cons_self _ _, ?_⟩
    · simp [classify, hc, hcand, heapPop, defaultCategory]
    · intro c hcmem
      rcases List.mem_cons.mp hcmem with hcx | hcxs
      · exact ⟨hcx ▸ le_refl _, fun _ => hcx ▸ le_refl _⟩
      · have hlt : cmpCategory x c = .lt :=
          (List.pairwise_cons.mp hsorted).1 c hcxs
        have hgt : cmpCategory c x = .gt := cmpCategory_lt_iff_gt.mp hlt
        rcases cmpCategory_eq_gt.mp hgt with h | ⟨he, hn⟩
        · exact ⟨le_of_lt h, fun habs => absurd (habs ▸ h) (lt_irrefl _)⟩
        · exact ⟨le_of_eq he, fun _ => le_of_lt hn⟩

/-- C2, witness for the amended theorem: the loaded set is
`[catHighPrio, catLowPrio]` in iteration order and the fallback is
`catHighPrio`. -/
theorem c2_amended_witness :
    ∃ m, classify (loadCategories [catLowPrio, catHighPrio] Categorizer.new)
        [Token.word "tea"] = .ok (some m) ∧
      m ∈ [catHighPrio, catLowPrio] ∧
      ∀ c ∈ [catHighPrio, catLowPrio], c.priority ≤ m.priority ∧
        (c.priority = m.priority → c.name ≤ m.name) :=
  c2_amended (loadCategories [catLowPrio, catHighPrio] Categorizer.new)
    [catHighPrio, catLowPrio] [Token.word "tea"] (by decide) (by decide)
    (by decide) (by decide)

/-- C3: when the matching candidates span at least two distinct priority
values, classify returns a candidate whose priority value is numerically
smallest among all candidates (the heap maximum under the reversed
ordering). -/
theorem c3_min_priority_wins (cz : Categorizer) (cats : List Category)
    (ts : List Token) (hc : cz.categories = some cats)
    (c1 c2 : Category) (h1 : c1 ∈ candidates cats ts)
    (h2 : c2 ∈ candidates cats ts) (hp : c1.priority ≠ c2.priority) :
    ∃ m, classify cz ts = .ok (some m) ∧ m ∈ candidates cats ts ∧
      ∀ c ∈ candidates cats ts, m.priority ≤ c.priority := by
  cases hpop : heapPop (candidates cats ts) with
  | none =>
    rw [heapPop_eq_none.mp hpop] at h1
    exact absurd h1 (by simp)
  | some m =>
    refine ⟨m, by simp [classify, hc, hpop], heapPop_mem hpop, ?_⟩
    intro c hcmem
    exact (cmpCategory_ne_gt.mp (heapPop_ge hpop c hcmem)).1

/-- C3, witness: "10 for banana chocolates" matches Sweets (10) and
Fruits (20); classification returns Sweets. -/
theorem c3_min_priority_wins_witness :
    ∃ m, classify fakeCategorizer (tokenize "10 for banana chocolates") =
        .ok (some m) ∧
      m ∈ candidates [categoryOthers, categoryFruits, categorySweets]
          (tokenize "10 for banana chocolates") ∧
      ∀ c ∈ candidates [categoryOthers, categoryFruits, categorySweets]
          (tokenize "10 for banana chocolates"), m.priority ≤ c.priority :=
  c3_min_priority_wins fakeCategorizer
    [categoryOthers, categoryFruits, categorySweets]
    (tokenize "10 for banana chocolates") (by decide)
    categorySweets categoryFruits (by decide) (by decide) (by decide)

/-- C4, counterexample: `catApple` and `catBanana` share priority 1 and
both match the word "x", yet classification returns `catApple`, whose name
is lexically *smaller* — not the lexically greater name "Banana" the claim
predicts. -/
theorem c4_counterexample :
    classify (loadCategories [catApple, catBanana] Categorizer.new)
        [Token.word "x"] = .ok (some catApple) ∧
    matchWord catApple "x" = true ∧ matchWord catBanana "x" = true ∧
    catApple.priority = catBanana.priority ∧
    catApple.name < catBanana.name :=
  ⟨by decide, by decide, by decide, by decide, strLt_iff.mp (by decide)⟩

/-- C4, amended: among candidates of minimal numeric priority that differ
in name, classify returns the one with the lexically *smallest* name (the
name comparison is reversed in `Ord for Category`, so the heap maximum has
the least name). -/
theorem c4_tie_smallest_name (cz : Categorizer) (cats : List Category)
    (ts : List Token) (hc : cz.categories = some cats)
    (c1 c2 : Category) (h1 : c1 ∈ candidates cats ts)
    (h2 : c2 ∈ candidates cats ts) (hp : c1.priority = c2.priority)
    (hn : c1.name ≠ c2.name)
    (hmin : ∀ c ∈ candidates cats ts, c1.priority ≤ c.priority) :
    ∃ m, classify cz ts = .ok (some m) ∧ m ∈ candidates cats ts ∧
      ∀ c ∈ candidates cats ts, m.priority ≤ c.priority ∧
        (c.priority = m.priority → m.name ≤ c.name) := by
  cases hpop : heapPop (candidates cats ts) with
  | none =>
    rw [heapPop_eq_none.mp hpop] at h1
    exact absurd h1 (by simp)
  | some m =>
    refine ⟨m, by simp [classify, hc, hpop], heapPop_mem hpop, ?_⟩
    intro c hcmem
    exact cmpCategory_ne_gt.mp (heapPop_ge hpop c hcmem)

/-- C4, witness for the amended theorem on the Apple/Banana tie. -/
theorem c4_tie_smallest_name_witness :
    ∃ m, classify (loadCategories [catApple, catBanana] Categorizer.new)
        [Token.word "x"] = .ok (some m) ∧
      m ∈ candidates [catBanana, catApple] [Token.word "x"] ∧
      ∀ c ∈ candidates [catBanana, catApple] [Token.word "x"],
        m.priority ≤ c.priority ∧ (c.priority = m.priority → m.name ≤ c.name) :=
  c4_tie_smallest_name (loadCategories [catApple, catBanana] Categorizer.new)
    [catBanana, catApple] [Token.word "x"] (by decide)
    catApple catBanana (by decide) (by decide) (by decide) (by decide)
    (by decide)

/-- C5: with at least one category loaded, `handle_message` fails (returns
nothing, hence no partial output) exactly when the tokenized input has no
`Amount` token; on success the produced record's amount is the first
`Amount` token of the stream, every token before it being a non-amount. -/
theorem c5_first_amount (today : Int) (cz : Categorizer)
    (cats : List Category) (inp : Input) (hc : cz.categories = some cats)
    (hne : cats ≠ []) :
    (handleMessage today cz inp = .ok none ↔
      ∀ a, Token.amount a ∉ tokenize inp.text) ∧
    (∀ out, handleMessage today cz inp = .ok (some out) →
      ∃ r a pre post,
        (out.events = [HandlerEvent.addRecord r] ∨
          out.events = [HandlerEvent.updateRecord r]) ∧
        r.amount = a ∧ tokenize inp.text = pre ++ Token.amount a :: post ∧
        ∀ b, Token.amount b ∉ pre) := by
  obtain ⟨cat, hcl⟩ := classify_total hc hne (tokenize inp.text)
  constructor
  · rw [← extractAmount_eq_none]
    simp only [handleMessage, hcl]
    cases ham : extractAmount (tokenize inp.text) with
    | none => exact iff_of_true rfl rfl
    | some a => exact iff_of_false (by simp) (by simp)
  · intro out h
    simp only [handleMessage, hcl] at h
    cases ham : extractAmount (tokenize inp.text) with
    | none => rw [ham] at h; exact absurd h (by simp)
    | some a =>
      rw [ham] at h
      obtain ⟨pre, post, heq, hpre⟩ := extractAmount_first ham
      by_cases hn : inp.isNew
      · simp only [hn, if_true, HandleResult.ok.injEq, Option.some.injEq] at h
        subst h
        exact ⟨_, a, pre, post, Or.inl rfl, rfl, heq, hpre⟩
      · simp only [hn, if_false, HandleResult.ok.injEq, Option.some.injEq,
          Bool.false_eq_true] at h
        subst h
        exact ⟨_, a, pre, post, Or.inr rfl, rfl, heq, hpre⟩

/-- C5, witness at a concrete successful run. -/
theorem c5_first_amount_witness :
    (handleMessage 5 czOthers c1Input = .ok none ↔
      ∀ a, Token.amount a ∉ tokenize c1Input.text) ∧
    (∀ out, handleMessage 5 czOthers c1Input = .ok (some out) →
      ∃ r a pre post,
        (out.events = [HandlerEvent.addRecord r] ∨
          out.events = [HandlerEvent.updateRecord r]) ∧
        r.amount = a ∧ tokenize c1Input.text = pre ++ Token.amount a :: post ∧
        ∀ b, Token.amount b ∉ pre) :=
  c5_first_amount 5 czOthers [categoryOthers] c1Input (by decide) (by decide)

/-- C6: parsing a string as an `Amount` succeeds exactly when it matches
`-?\d+([.,]\d{1,2})?` (read as the regex's decomposition semantics), and
then stores the string with commas replaced by dots; a chunk whose stripped
form fails this validation is emitted by the tokenizer as an ordinary
`Word` (possibly followed by its stripped trailing signs), never as an
error. -/
theorem c6_amount_format :
    (∀ s, (amountFromStr s).isSome = true ↔ specAmountRe s) ∧
    (∀ s v, amountFromStr s = some v → v = commaToDot s) ∧
    (∀ w : List Char, amountFromStr (String.mk (stripTrailing w)) = none →
      ∃ rest, tokenizeChunk w = Token.word (String.mk (stripTrailing w)) :: rest ∧
        ∀ t ∈ rest, ∃ signs, t = Token.trailingSigns signs) := by
  refine ⟨?_, ?_, ?_⟩
  · intro s
    rw [← matchesAmountFormat_iff]
    unfold amountFromStr
    by_cases h : matchesAmountFormat s = true
    · rw [if_pos h]; exact iff_of_true rfl h
    · rw [if_neg h]; exact iff_of_false (by simp) h
  · intro s v h
    unfold amountFromStr at h
    by_cases hm : matchesAmountFormat s = true
    · rw [if_pos hm] at h
      exact (Option.some.injEq .. ▸ h).symm
    · rw [if_neg hm] at h
      exact absurd h (by simp)
  · intro w h
    simp only [tokenizeChunk, h]
    by_cases he : stripTrailing w = w
    · rw [if_pos he]
      exact ⟨[], rfl, by simp⟩
    · rw [if_neg he]
      refine ⟨[Token.trailingSigns (String.mk (w.drop (stripTrailing w).length))],
        rfl, ?_⟩
      intro t ht
      rw [List.mem_singleton.mp ht]
      exact ⟨_, rfl⟩

/-- C6, witness: "42,13" parses with the comma normalised; "42.135" is
rejected and its chunk becomes a `Word`. -/
theorem c6_amount_format_witness :
    specAmountRe "42,13" ∧
    ((amountFromStr "42,13").isSome = true) ∧
    ("42.13" : String) = commaToDot "42,13" ∧
    (∃ rest, tokenizeChunk "42.135!".data =
      Token.word (String.mk (stripTrailing "42.135!".data)) :: rest ∧
      ∀ t ∈ rest, ∃ signs, t = Token.trailingSigns signs) :=
  ⟨(c6_amount_format.1 "42,13").mp (by decide),
   by decide,
   c6_amount_format.2.1 "42,13" "42.13" (by decide),
   c6_amount_format.2.2 "42.135!".data (by decide)⟩

/-- C7: for every pair of today's weekday `t` and target weekday `w`, the
`last`/`on <weekday>` offset equals
`(7 + t.num_days_from_monday - w.num_days_from_monday) % 7` with a zero
result rewritten to 7, lies between 1 and 7 inclusive, and is exactly what
the English resolver returns for "last <w>" and "on <w>". -/
theorem c7_weekday_offset :
    ∀ t w : Weekday,
      lastWeekdayShift t w =
        (if (7 + numDaysFromMonday t - numDaysFromMonday w) % 7 = 0 then 7
         else (7 + numDaysFromMonday t - numDaysFromMonday w) % 7) ∧
      1 ≤ lastWeekdayShift t w ∧ lastWeekdayShift t w ≤ 7 ∧
      englishDateShift t [Token.word "last", Token.word (weekdayName w)] =
        some (Int.ofNat (lastWeekdayShift t w)) ∧
      englishDateShift t [Token.word "on", Token.word (weekdayName w)] =
        some (Int.ofNat (lastWeekdayShift t w)) := by
  intro t w
  cases t <;> cases w <;> exact ⟨rfl, by decide, by decide, by decide, by decide⟩

/-- C8, counterexample: in "Chocolate pie, 9,75." the trailing-signs token
"," immediately follows the word "pie" and is not leading, so the claim
predicts it is re-attached ("Chocolate pie,"); the code (and the
repository's own test) produce "Chocolate pie" — a trailing-signs token
with no later word is dropped. -/
theorem c8_counterexample :
    tokenize "Chocolate pie, 9,75." =
      [Token.word "Chocolate", Token.word "pie", Token.trailingSigns ",",
       Token.amount "9.75", Token.trailingSigns "."] ∧
    extractDescription (tokenize "Chocolate pie, 9,75.") = "Chocolate pie" ∧
    ("Chocolate pie" : String) ≠ "Chocolate pie," := by decide

/-- C8, amended: provided `Word` tokens are nonempty (as the tokenizer
produces for non-punctuation-only chunks), the description equals the
words joined by single spaces, where the *first* trailing-signs token
occurring between two words (even with amounts in between) is re-attached
to the earlier text, while trailing-signs tokens before the first word,
further trailing-signs tokens of the same gap, and trailing-signs tokens
not followed by any later word are dropped. -/
theorem c8_description (ts : List Token)
    (hw : ∀ w, Token.word w ∈ ts → w ≠ "") :
    extractDescription ts = String.mk (specDesc ts) := by
  unfold extractDescription
  rw [descGo_empty_eq_specDesc hw]

/-- C8, witness on the spec's own example "9,75. Chocolate pie". -/
theorem c8_description_witness :
    extractDescription (tokenize "9,75. Chocolate pie") =
      String.mk (specDesc (tokenize "9,75. Chocolate pie")) :=
  c8_description (tokenize "9,75. Chocolate pie") (by
    intro w hmem
    have htok : tokenize "9,75. Chocolate pie" =
        [Token.amount "9.75", Token.trailingSigns ".",
         Token.word "Chocolate", Token.word "pie"] := by decide
    rw [htok] at hmem
    simp only [List.mem_cons, List.not_mem_nil, or_false] at hmem
    rcases hmem with h | h | h | h
    · exact Token.noConfusion h
    · exact Token.noConfusion h
    · rw [Token.word.injEq] at h; subst h; decide
    · rw [Token.word.injEq] at h; subst h; decide)

/-- C9: classifying with a never-loaded categorizer panics (the `expect` on
the `None` field), and once at least one category has been loaded classify
never panics and returns some category for every token stream. -/
theorem c9_classify_precondition (ts : List Token)
    (provider : List Category) (hne : provider ≠ []) :
    classify Categorizer.new ts = .panic ∧
    ∃ c, classify (loadCategories provider Categorizer.new) ts =
      .ok (some c) := by
  constructor
  · rfl
  · obtain ⟨cs, hcs, hcsne⟩ := loadCategories_loaded hne
    exact classify_total hcs hcsne ts

/-- C9, witness with the single-category provider. -/
theorem c9_classify_precondition_witness :
    classify Categorizer.new [Token.word "tea"] = .panic ∧
    ∃ c, classify (loadCategories [categoryOthers] Categorizer.new)
      [Token.word "tea"] = .ok (some c) :=
  c9_classify_precondition [Token.word "tea"] [categoryOthers] (by decide)

/-- C10: classification depends only on the set of word texts: for a
loaded category set (whose members, coming from a `BTreeSet`, are pairwise
distinct under its ordering), two token streams with the same set of
`Word` texts classify identically — amounts, trailing signs, word order
and word multiplicity have no influence. -/
theorem c10_word_set_determines (cz : Categorizer) (cats : List Category)
    (ts1 ts2 : List Token) (hc : cz.categories = some cats)
    (hdist : ∀ x ∈ cats, ∀ y ∈ cats, cmpCategory x y = .eq → x = y)
    (hw : ∀ w, w ∈ wordTexts ts1 ↔ w ∈ wordTexts ts2) :
    classify cz ts1 = classify cz ts2 := by
  have hcand : ∀ c, c ∈ candidates cats ts1 ↔ c ∈ candidates cats ts2 := by
    intro c
    rw [mem_candidates, mem_candidates]
    constructor
    · rintro ⟨hcc, w, hwmem, hm⟩
      exact ⟨hcc, w, (hw w).mp hwmem, hm⟩
    · rintro ⟨hcc, w, hwmem, hm⟩
      exact ⟨hcc, w, (hw w).mpr hwmem, hm⟩
  have hdist1 : ∀ x ∈ candidates cats ts1, ∀ y ∈ candidates cats ts1,
      cmpCategory x y = .eq → x = y :=
    fun x hx y hy =>
      hdist x (candidates_subset hx) y (candidates_subset hy)
  simp only [classify, hc]
  rw [heapPop_congr hcand hdist1]

/-- C10, witness: "10 for banana chocolates" and a reordered, re-punctuated
stream with duplicated words classify identically. -/
theorem c10_word_set_determines_witness :
    classify fakeCategorizer (tokenize "10 for banana chocolates") =
      classify fakeCategorizer
        (tokenize "chocolates, banana! banana for for 99") :=
  c10_word_set_determines fakeCategorizer
    [categoryOthers, categoryFruits, categorySweets]
    (tokenize "10 for banana chocolates")
    (tokenize "chocolates, banana! banana for for 99")
    (by decide) (by decide) (by
      intro w
      have hA : wordTexts (tokenize "10 for banana chocolates") =
          ["for", "banana", "chocolates"] := by decide
      have hB : wordTexts (tokenize "chocolates, banana! banana for for 99") =
          ["chocolates", "banana", "banana", "for", "for"] := by decide
      rw [hA, hB]
      simp only [List.mem_cons, List.not_mem_nil, or_false]
      tauto)
